import Mathlib

/-!
# go-iconv: the streaming conversion loop and the one-shot helper

A shallow embedding of `iconv.go`.  The native library (`iconv_open`, `iconv`,
`iconv_close`) is an arbitrary `Engine`; everything the Go file itself does
(the scratch block, the two cursors, the `bytes.Buffer`, the retry on `E2BIG`,
the deferred `Close`) is translated line by line.

The `for` loop of `Iconv.Conv` has no bound of its own, so the embedding takes
a number of permitted iterations (`fuel`) and answers `none` when that number
does not suffice.

C memory is the scratch block together with the stores that the native `iconv`
makes past its end, into the C heap (`beyond`).  A later native call that
releases heap memory has no defined behaviour on such a heap.
-/

namespace GoIconv

/-- One byte of a Go string or of C memory. -/
abbrev Byte := Fin 256

/-- A C `errno` value as cgo hands it over (`syscall.Errno`). -/
abbrev Errno := Nat

/-- `syscall.E2BIG`: the output area is exhausted. -/
def E2BIG : Errno := 7

/-- `EILSEQ`: an invalid multi-byte sequence in the input. -/
def EILSEQ : Errno := 84

/-- `const bufSize = 512` (iconv.go:17). -/
def bufSize : Nat := 512

/-- What one call of the native `iconv` answers: the descriptor's new internal
state, how many input bytes it took, the bytes it produced, and the error cgo
derives from `errno` (`none` is Go's `nil`). -/
structure StepOut (σ : Type) where
  cd : σ
  consumed : Nat
  produced : List Byte
  err : Option Errno

/-- The native library behind the binding.  `iconv cd inp room` is handed the
remaining input and the number of bytes of output room. -/
structure Engine (σ : Type) where
  iconv_open : String → String → Except Errno σ
  iconv : σ → List Byte → Nat → StepOut σ
  iconv_close : σ → Option Errno

/-- `type Iconv struct { pointer C.iconv_t }` (iconv.go:20). -/
structure Iconv (σ : Type) where
  pointer : σ

/-- The block `mem` after `bs` is stored from offset `off` on.  The bytes that
land past the end of the block do not change the block: they go into the C heap
behind it, see `spill`. -/
def poke : List Byte → Nat → List Byte → List Byte
  | [], _, _ => []
  | m :: mem, 0, [] => m :: mem
  | _ :: mem, 0, b :: bs => b :: poke mem 0 bs
  | m :: mem, off + 1, bs => m :: poke mem off bs

/-- The part of a store of `bs` from offset `off` on that lands past the end of
a block of `size` bytes, in the C heap behind the allocation: each such byte
with its offset from the start of the block. -/
def spill (size : Nat) : Nat → List Byte → List (Nat × Byte)
  | _, [] => []
  | off, b :: bs =>
    if size ≤ off then (off, b) :: spill size (off + 1) bs
    else spill size (off + 1) bs

/-- `C.malloc(n)`: a block of `n` bytes (its initial contents are
indeterminate in C; the model fills it with zeros). -/
def malloc (n : Nat) : List Byte := List.replicate n 0

/-- `C.GoBytes(outBufStart, n)`: a copy of the first `n` bytes of the block. -/
def GoBytes (block : List Byte) (n : Nat) : List Byte := block.take n

/-- The C variables after one `C.iconv(cd, &inBuf, &inBufN, &outBuf, &outBufN)`,
together with what the call took and stored, and the part of the store that
went past the end of the block. -/
structure IconvRet (σ : Type) where
  cd : σ
  inBuf : List Byte
  outBuf : Nat
  outBufN : Nat
  block : List Byte
  err : Option Errno
  consumed : Nat
  written : List Byte
  spilled : List (Nat × Byte)

/-- One call `C.iconv(cd, &inBuf, &inBufN, &outBuf, &outBufN)`.

`inBuf` is the input from the input cursor to its end (so `inBufN` is its
length), `outBuf` is the offset of the output cursor from `outBufStart`.
As `iconv(3)` specifies, the call takes at most `inBufN` bytes, stores at most
`outBufN` bytes at the output cursor, and moves both cursors and both counters
by what it took and stored.  It stores wherever the cursor points: inside the
block as far as the block reaches, behind it otherwise. -/
def C_iconv {σ : Type} (E : Engine σ) (cd : σ) (inBuf : List Byte)
    (outBuf outBufN : Nat) (block : List Byte) : IconvRet σ :=
  let r := E.iconv cd inBuf outBufN
  let consumed := min r.consumed inBuf.length
  let written := r.produced.take outBufN
  { cd := r.cd
    inBuf := inBuf.drop consumed
    outBuf := outBuf + written.length
    outBufN := outBufN - written.length
    block := poke block outBuf written
    err := r.err
    consumed := consumed
    written := written
    spilled := spill block.length outBuf written }

/-- A record of one engine step made by `Iconv.Conv`: the arguments on entry
(`inBufN`, the offset of `outBuf` from `outBufStart`, `outBufN`), what the
engine took and stored, its error, and the bytes `buf.Write` appended after
the call. -/
structure StepRec where
  inBufN : Nat
  outBuf : Nat
  outBufN : Nat
  consumed : Nat
  written : List Byte
  err : Option Errno
  appended : List Byte
  deriving DecidableEq, Repr

/-- What `(*Iconv).Conv` returns (`result`, `err`), the descriptor's state
afterwards, the record of the engine steps it made, in order, and the stores
its steps made into the C heap behind the scratch block. -/
structure ConvRet (σ : Type) where
  result : List Byte
  err : Option Errno
  cd : σ
  steps : List StepRec
  beyond : List (Nat × Byte)

/-- The local variables of `(*Iconv).Conv` that live across loop iterations
(iconv.go:47-59), the steps made so far, and the stores made so far into the C
heap behind the scratch block. -/
structure LoopState (σ : Type) where
  cd : σ
  inBuf : List Byte
  outBuf : Nat
  block : List Byte
  buf : List Byte
  steps : List StepRec
  beyond : List (Nat × Byte)

/-- The loop `for inBufN > 0 { ... }` of `(*Iconv).Conv` (iconv.go:61-74),
with at most `fuel` iterations. -/
def convLoop {σ : Type} (E : Engine σ) : Nat → LoopState σ → Option (ConvRet σ)
  | 0, st =>
    if st.inBuf.length > 0 then none
    else some { result := st.buf, err := none, cd := st.cd, steps := st.steps,
                beyond := st.beyond }
  | fuel + 1, st =>
    if st.inBuf.length > 0 then
      let outBufN := bufSize
      let r := C_iconv E st.cd st.inBuf st.outBuf outBufN st.block
      let chunk := GoBytes r.block (bufSize - r.outBufN)
      let buf := st.buf ++ chunk
      let steps := st.steps ++
        [{ inBufN := st.inBuf.length, outBuf := st.outBuf, outBufN := outBufN,
           consumed := r.consumed, written := r.written, err := r.err,
           appended := chunk }]
      let beyond := st.beyond ++ r.spilled
      if r.err ≠ none ∧ r.err ≠ some E2BIG then
        some { result := buf, err := r.err, cd := r.cd, steps := steps,
               beyond := beyond }
      else
        convLoop E fuel
          { cd := r.cd, inBuf := r.inBuf, outBuf := r.outBuf, block := r.block,
            buf := buf, steps := steps, beyond := beyond }
    else some { result := st.buf, err := none, cd := st.cd, steps := st.steps,
                beyond := st.beyond }

/-- `func (cd *Iconv) Conv(input string) (result string, err error)`
(iconv.go:46-75).  The two deferred `C.free` calls are taken to return; the
stores made behind the scratch block are handed on in `beyond`. -/
def Iconv.Conv {σ : Type} (E : Engine σ) (fuel : Nat) (cd : Iconv σ)
    (input : List Byte) : Option (ConvRet σ) :=
  if input.length = 0 then
    some { result := [], err := none, cd := cd.pointer, steps := [], beyond := [] }
  else
    convLoop E fuel
      { cd := cd.pointer, inBuf := input, outBuf := 0, block := malloc bufSize,
        buf := [], steps := [], beyond := [] }

/-- `func Open(tocode string, fromcode string) (*Iconv, error)`
(iconv.go:31-37). -/
def Open {σ : Type} (E : Engine σ) (tocode fromcode : String) :
    Except Errno (Iconv σ) :=
  match E.iconv_open tocode fromcode with
  | .error err => .error err
  | .ok ret => .ok { pointer := ret }

/-- How a call ends: it returns a value, or the permitted iterations are used
up while the loop still runs, or C defines no behaviour for it. -/
inductive Outcome (α : Type) where
  | returns (a : α)
  | running
  | undefined
  deriving DecidableEq, Repr

/-- The value of an outcome replaced by its image under `f`. -/
def Outcome.map {α β : Type} (f : α → β) : Outcome α → Outcome β
  | Outcome.returns a => Outcome.returns (f a)
  | Outcome.running => Outcome.running
  | Outcome.undefined => Outcome.undefined

/-- One call `C.iconv_close(cd)` on a C heap in which `beyond` are the stores
made behind an allocation.  `iconv_close` releases the heap memory of the
descriptor; on a heap with such stores C defines no behaviour for it. -/
def C_iconv_close {σ : Type} (E : Engine σ) (beyond : List (Nat × Byte)) (cd : σ) :
    Outcome (Option Errno) :=
  match beyond with
  | [] => Outcome.returns (E.iconv_close cd)
  | _ :: _ => Outcome.undefined

/-- `func (cd *Iconv) Close() error` (iconv.go:40-43), on a C heap with the
stores `beyond` behind an allocation. -/
def Iconv.Close {σ : Type} (E : Engine σ) (beyond : List (Nat × Byte))
    (cd : Iconv σ) : Outcome (Option Errno) :=
  C_iconv_close E beyond cd.pointer

/-- One call into the native library, as the one-shot helper makes them. -/
inductive Call where
  | opened (err : Option Errno)
  | step (r : StepRec)
  | closed (err : Option Errno)
  deriving DecidableEq, Repr

/-- What the one-shot `Conv` returns, and the native calls it made, in order. -/
structure OnceRet where
  result : List Byte
  err : Option Errno
  calls : List Call
  deriving DecidableEq, Repr

/-- `func Conv(input string, tocode string, fromcode string) (string, error)`
(iconv.go:78-85).  The deferred `h.Close()` runs when `h.Conv` has returned, on
the C heap as `h.Conv` left it; the error it returns is not used. -/
def Conv {σ : Type} (E : Engine σ) (fuel : Nat) (input : List Byte)
    (tocode fromcode : String) : Outcome OnceRet :=
  match Open E tocode fromcode with
  | .error err =>
    Outcome.returns { result := [], err := some err, calls := [Call.opened (some err)] }
  | .ok h =>
    match h.Conv E fuel input with
    | none => Outcome.running
    | some r =>
      match Iconv.Close E r.beyond { pointer := r.cd } with
      | Outcome.returns cerr =>
        Outcome.returns
          { result := r.result, err := r.err,
            calls := [Call.opened none] ++ r.steps.map Call.step ++ [Call.closed cerr] }
      | Outcome.running => Outcome.running
      | Outcome.undefined => Outcome.undefined

/-- Number of conversion steps among the native calls. -/
def stepCalls (cs : List Call) : Nat :=
  cs.countP fun c => match c with
    | Call.step _ => true
    | _ => false

/-- Number of releases of the descriptor among the native calls. -/
def closeCalls (cs : List Call) : Nat :=
  cs.countP fun c => match c with
    | Call.closed _ => true
    | _ => false

/-! ## Engines used at concrete inputs -/

/-- The conversion step of an ASCII-to-ASCII converter: bytes below `0x80` are
copied one by one while output room remains; a byte from `0x80` on is an
invalid sequence; input left over when the room is used up is `E2BIG`.
Returns the number of bytes taken, the bytes produced and the error. -/
def asciiStep : List Byte → Nat → Nat × List Byte × Option Errno
  | [], _ => (0, [], none)
  | b :: bs, room =>
    if 128 ≤ b.val then (0, [], some EILSEQ)
    else
      match room with
      | 0 => (0, [], some E2BIG)
      | room + 1 =>
        let r := asciiStep bs room
        (r.1 + 1, b :: r.2.1, r.2.2)

/-- An engine without internal state that converts ASCII to ASCII. -/
def asciiEngine : Engine Unit where
  iconv_open := fun _ _ => .ok ()
  iconv := fun _ inp room =>
    let r := asciiStep inp room
    { cd := (), consumed := r.1, produced := r.2.1, err := r.2.2 }
  iconv_close := fun _ => none

/-- An engine whose step takes no input, produces nothing and reports
`E2BIG`. -/
def stallEngine : Engine Unit where
  iconv_open := fun _ _ => .ok ()
  iconv := fun _ _ _ => { cd := (), consumed := 0, produced := [], err := some E2BIG }
  iconv_close := fun _ => none

/-- An engine that knows no charset: `iconv_open` fails with `EINVAL` (22). -/
def noCharsetEngine : Engine Unit :=
  { asciiEngine with iconv_open := fun _ _ => .error 22 }

/-- The single-pass reference conversion: one engine step over the whole input
with output room `room`. -/
def reference {σ : Type} (E : Engine σ) (cd : σ) (input : List Byte) (room : Nat) :
    List Byte :=
  (E.iconv cd input room).produced.take room

/-- The outcomes of a step after which the loop goes on: Go's `nil` and
`syscall.E2BIG` (the negation of the test at iconv.go:69). -/
def okErr (e : Option Errno) : Prop := e = none ∨ e = some E2BIG

instance : DecidablePred okErr := fun e => by unfold okErr; infer_instance

/-! ## The loop in general -/

/-- What a finished run of the loop looks like: the steps it added, the result
as the concatenation of what was appended, the bytes taken on success, and where
a failing step can stand. -/
theorem convLoop_spec {σ : Type} (E : Engine σ) :
    ∀ (fuel : Nat) (st : LoopState σ) (r : ConvRet σ),
      convLoop E fuel st = some r →
      ∃ new : List StepRec, r.steps = st.steps ++ new ∧
        r.result = st.buf ++ (new.map (fun t => t.appended)).flatten ∧
        (r.err = none → (new.map (fun t => t.consumed)).sum = st.inBuf.length) ∧
        (∀ t ∈ new, ¬ okErr t.err → r.err = t.err) ∧
        (r.err ≠ none → ¬ okErr r.err ∧ ∃ t ∈ new, t.err = r.err) ∧
        new.length ≤ fuel := by
  intro fuel
  induction fuel with
  | zero =>
    intro st r h
    simp only [convLoop] at h
    split at h
    · exact absurd h (by simp)
    · rename_i hlen
      simp only [Option.some.injEq] at h
      subst h
      refine ⟨[], by simp, by simp, ?_, by simp, by simp, by simp⟩
      intro _
      simp at hlen
      simp [hlen]
  | succ fuel ih =>
    intro st r h
    simp only [convLoop] at h
    split at h
    · rename_i hlen
      split at h
      · rename_i hfail
        simp only [Option.some.injEq] at h
        subst h
        refine ⟨[_], rfl, by simp, ?_, ?_, ?_, by simp⟩
        · intro hnone
          exact absurd hnone hfail.1
        · intro t ht _
          simp only [List.mem_singleton] at ht
          subst ht
          rfl
        · intro _
          refine ⟨?_, _, List.mem_singleton_self _, rfl⟩
          intro hok
          rcases hok with hok | hok
          · exact hfail.1 hok
          · exact hfail.2 hok
      · rename_i hgo
        obtain ⟨new, hsteps, hres, hsum, hbad, herr, hlen2⟩ := ih _ r h
        dsimp only at hsteps hres
        rw [List.append_assoc, List.singleton_append] at hsteps
        refine ⟨_ :: new, hsteps, ?_, ?_, ?_, ?_, ?_⟩
        · simpa using hres
        · intro hnone
          have := hsum hnone
          simp only [C_iconv] at this
          simp only [List.map_cons, List.sum_cons, C_iconv, this, List.length_drop]
          omega
        · intro t ht hnot
          rcases List.mem_cons.mp ht with ht | ht
          · subst ht
            exfalso
            apply hnot
            by_cases h1 : (C_iconv E st.cd st.inBuf st.outBuf bufSize st.block).err = none
            · exact Or.inl h1
            · by_cases h2 : (C_iconv E st.cd st.inBuf st.outBuf bufSize st.block).err = some E2BIG
              · exact Or.inr h2
              · exact absurd ⟨h1, h2⟩ hgo
          · exact hbad t ht hnot
        · intro hne
          obtain ⟨h1, t, ht, h2⟩ := herr hne
          exact ⟨h1, t, List.mem_cons_of_mem _ ht, h2⟩
        · simp only [List.length_cons]
          omega
    · rename_i hlen
      simp only [Option.some.injEq] at h
      subst h
      refine ⟨[], by simp, by simp, ?_, by simp, by simp, by simp⟩
      intro _
      simp at hlen
      simp [hlen]

/-- With an engine that takes at least one byte at every step it does not fail
at, the loop finishes within as many iterations as input bytes remain. -/
theorem convLoop_terminates {σ : Type} (E : Engine σ)
    (hprog : ∀ s inp, inp ≠ [] → okErr (E.iconv s inp bufSize).err →
      0 < (E.iconv s inp bufSize).consumed) :
    ∀ (fuel : Nat) (st : LoopState σ), st.inBuf.length ≤ fuel →
      ∃ r, convLoop E fuel st = some r ∧
        r.steps.length ≤ st.steps.length + st.inBuf.length := by
  intro fuel
  induction fuel with
  | zero =>
    intro st hle
    have h0 : ¬ st.inBuf.length > 0 := by omega
    simp only [convLoop, if_neg h0]
    exact ⟨_, rfl, by simp⟩
  | succ fuel ih =>
    intro st hle
    by_cases hlen : st.inBuf.length > 0
    · by_cases hfail : (C_iconv E st.cd st.inBuf st.outBuf bufSize st.block).err ≠ none ∧
          (C_iconv E st.cd st.inBuf st.outBuf bufSize st.block).err ≠ some E2BIG
      · simp only [convLoop, if_pos hlen, if_pos hfail]
        refine ⟨_, rfl, ?_⟩
        simp only [List.length_append, List.length_singleton]
        omega
      · have hne : st.inBuf ≠ [] := by
          intro h
          simp [h] at hlen
        have hok : okErr (E.iconv st.cd st.inBuf bufSize).err := by
          by_cases h1 : (E.iconv st.cd st.inBuf bufSize).err = none
          · exact Or.inl h1
          · by_cases h2 : (E.iconv st.cd st.inBuf bufSize).err = some E2BIG
            · exact Or.inr h2
            · exact absurd ⟨h1, h2⟩ hfail
        have hpos := hprog st.cd st.inBuf hne hok
        obtain ⟨r, hr, hsteps⟩ := ih
          { cd := (C_iconv E st.cd st.inBuf st.outBuf bufSize st.block).cd
            inBuf := (C_iconv E st.cd st.inBuf st.outBuf bufSize st.block).inBuf
            outBuf := (C_iconv E st.cd st.inBuf st.outBuf bufSize st.block).outBuf
            block := (C_iconv E st.cd st.inBuf st.outBuf bufSize st.block).block
            buf := st.buf ++ GoBytes (C_iconv E st.cd st.inBuf st.outBuf bufSize st.block).block
              (bufSize - (C_iconv E st.cd st.inBuf st.outBuf bufSize st.block).outBufN)
            steps := st.steps ++
              [{ inBufN := st.inBuf.length, outBuf := st.outBuf, outBufN := bufSize,
                 consumed := (C_iconv E st.cd st.inBuf st.outBuf bufSize st.block).consumed,
                 written := (C_iconv E st.cd st.inBuf st.outBuf bufSize st.block).written,
                 err := (C_iconv E st.cd st.inBuf st.outBuf bufSize st.block).err,
                 appended := GoBytes (C_iconv E st.cd st.inBuf st.outBuf bufSize st.block).block
                   (bufSize - (C_iconv E st.cd st.inBuf st.outBuf bufSize st.block).outBufN) }]
            beyond := st.beyond ++
              (C_iconv E st.cd st.inBuf st.outBuf bufSize st.block).spilled }
          (by simp only [C_iconv, List.length_drop]; omega)
        refine ⟨r, ?_, ?_⟩
        · simp only [convLoop, if_pos hlen, if_neg hfail]
          exact hr
        · simp only [List.length_append, List.length_singleton, C_iconv,
            List.length_drop] at hsteps
          omega
    · simp only [convLoop, if_neg hlen]
      exact ⟨_, rfl, by simp⟩

/-- With an engine whose step never fails and never takes a byte, the loop
does not finish while input remains, whatever the number of iterations. -/
theorem convLoop_stalls {σ : Type} (E : Engine σ)
    (hstall : ∀ s inp, okErr (E.iconv s inp bufSize).err ∧
      (E.iconv s inp bufSize).consumed = 0) :
    ∀ (fuel : Nat) (st : LoopState σ), st.inBuf ≠ [] → convLoop E fuel st = none := by
  intro fuel
  induction fuel with
  | zero =>
    intro st hne
    have hlen : st.inBuf.length > 0 := List.length_pos.mpr hne
    simp only [convLoop, if_pos hlen]
  | succ fuel ih =>
    intro st hne
    have hlen : st.inBuf.length > 0 := List.length_pos.mpr hne
    obtain ⟨hok, hzero⟩ := hstall st.cd st.inBuf
    have hgo : ¬ ((C_iconv E st.cd st.inBuf st.outBuf bufSize st.block).err ≠ none ∧
        (C_iconv E st.cd st.inBuf st.outBuf bufSize st.block).err ≠ some E2BIG) := by
      intro h
      rcases hok with hok | hok
      · exact h.1 hok
      · exact h.2 hok
    simp only [convLoop, if_pos hlen, if_neg hgo]
    apply ih
    simp only [C_iconv, hzero, Nat.zero_min, List.drop_zero]
    exact hne

/-- The ASCII engine takes a byte at every step it does not fail at. -/
theorem asciiEngine_progress :
    ∀ (s : Unit) (inp : List Byte), inp ≠ [] →
      okErr (asciiEngine.iconv s inp bufSize).err →
      0 < (asciiEngine.iconv s inp bufSize).consumed := by
  intro s inp hne hok
  cases inp with
  | nil => exact absurd rfl hne
  | cons b bs =>
    simp only [asciiEngine, asciiStep, bufSize] at hok ⊢
    split at hok
    · rcases hok with h | h
      · simp at h
      · simp [EILSEQ, E2BIG] at h
    · rename_i hb
      simp [hb]

/-! ## The claims -/

set_option maxRecDepth 100000

/-- C2: for every descriptor, `Iconv.Conv` of the empty input returns the empty
output and no failure, having made no engine step (whatever the number of
permitted iterations, zero included), and leaves the descriptor as it was. -/
theorem C2_empty_input {σ : Type} (E : Engine σ) (fuel : Nat) (cd : Iconv σ) :
    ∃ r, Iconv.Conv E fuel cd [] = some r ∧ r.result = [] ∧ r.err = none ∧
      r.steps = [] ∧ r.cd = cd.pointer :=
  ⟨_, rfl, rfl, rfl, rfl, rfl⟩

/-- C6: if the engine's open fails, the one-shot `Conv` returns the empty output
together with exactly that failure, and has made no conversion step and no
release of a descriptor: the failed open is its only native call. -/
theorem C6_open_failure {σ : Type} (E : Engine σ) (fuel : Nat) (input : List Byte)
    (tocode fromcode : String) (e : Errno)
    (hopen : E.iconv_open tocode fromcode = Except.error e) :
    ∃ o, Conv E fuel input tocode fromcode = Outcome.returns o ∧ o.result = [] ∧
      o.err = some e ∧ stepCalls o.calls = 0 ∧ closeCalls o.calls = 0 ∧
      o.calls = [Call.opened (some e)] := by
  refine ⟨{ result := [], err := some e, calls := [Call.opened (some e)] }, ?_,
    rfl, rfl, rfl, rfl, rfl⟩
  simp only [Conv, Open, hopen]

/-- C6 at a concrete input: an engine that knows no charset. -/
theorem C6_open_failure_witness :
    ∃ o, Conv noCharsetEngine 0 [97, 98] "KLINGON" "UTF-8" = Outcome.returns o ∧
      o.result = [] ∧
      o.err = some 22 ∧ stepCalls o.calls = 0 ∧ closeCalls o.calls = 0 ∧
      o.calls = [Call.opened (some 22)] :=
  C6_open_failure noCharsetEngine 0 [97, 98] "KLINGON" "UTF-8" 22 rfl

/-- The records of conversion steps hold no release. -/
theorem closeCalls_steps (ts : List StepRec) : closeCalls (ts.map Call.step) = 0 := by
  induction ts with
  | nil => rfl
  | cons t ts ih =>
    simp only [closeCalls, List.map_cons] at ih ⊢
    rw [List.countP_cons_of_neg]
    · exact ih
    · simp

/-- A run of the loop that has finished is not changed by one more permitted
iteration. -/
theorem convLoop_mono {σ : Type} (E : Engine σ) :
    ∀ (fuel : Nat) (st : LoopState σ) (r : ConvRet σ),
      convLoop E fuel st = some r → convLoop E (fuel + 1) st = some r := by
  intro fuel
  induction fuel with
  | zero =>
    intro st r h
    simp only [convLoop] at h
    split at h
    · exact absurd h (by simp)
    · rename_i hlen
      simp only [convLoop, if_neg hlen]
      exact h
  | succ fuel ih =>
    intro st r h
    rw [convLoop] at h
    rw [convLoop]
    by_cases hlen : st.inBuf.length > 0
    · by_cases hfail : (C_iconv E st.cd st.inBuf st.outBuf bufSize st.block).err ≠ none ∧
          (C_iconv E st.cd st.inBuf st.outBuf bufSize st.block).err ≠ some E2BIG
      · simp only [if_pos hlen, if_pos hfail] at h ⊢
        exact h
      · simp only [if_pos hlen, if_neg hfail] at h ⊢
        exact ih _ r h
    · simp only [if_neg hlen] at h ⊢
      exact h

/-- A finished `Iconv.Conv` is not changed by more permitted iterations. -/
theorem Iconv_Conv_mono {σ : Type} (E : Engine σ) (fuel : Nat) (cd : Iconv σ)
    (input : List Byte) (r : ConvRet σ) (h : Iconv.Conv E fuel cd input = some r) :
    ∀ k, Iconv.Conv E (fuel + k) cd input = some r := by
  intro k
  induction k with
  | zero => exact h
  | succ k ih =>
    unfold Iconv.Conv at ih ⊢
    split
    · rename_i hlen
      simp only [if_pos hlen] at ih
      exact ih
    · rename_i hlen
      simp only [if_neg hlen] at ih
      exact convLoop_mono E (fuel + k) _ r ih

/-- When the engine's open succeeds and the streaming conversion returns with
no store behind the scratch block, the one-shot `Conv` returns the same output
and the same failure, having released the descriptor exactly once, as its last
native call. -/
theorem Conv_releases_once {σ : Type} (E : Engine σ) (fuel : Nat) (input : List Byte)
    (tocode fromcode : String) (h : σ) (r : ConvRet σ)
    (hopen : E.iconv_open tocode fromcode = Except.ok h)
    (hr : Iconv.Conv E fuel ⟨h⟩ input = some r) (hin : r.beyond = []) :
    ∃ o, Conv E fuel input tocode fromcode = Outcome.returns o ∧ o.result = r.result ∧
      o.err = r.err ∧ closeCalls o.calls = 1 ∧
      o.calls.getLast? = some (Call.closed (E.iconv_close r.cd)) := by
  simp only [Conv, Open, hopen, hr, Iconv.Close, C_iconv_close, hin]
  refine ⟨_, rfl, rfl, rfl, ?_, ?_⟩
  · have h0 := closeCalls_steps r.steps
    simp only [closeCalls] at h0 ⊢
    simp [List.countP_append, h0, List.countP_cons]
  · exact List.getLast?_concat _

/-- C10: if the engine takes at least one input byte at every step that
reports success or `E2BIG` while input remains, `Iconv.Conv` returns after at
most `len(input)` engine steps; if instead every step reports success or
`E2BIG` and takes nothing, `Iconv.Conv` of a non-empty input does not return
whatever the number of iterations; and after any single such step the loop goes
on with the same remaining input. -/
theorem C10_termination {σ : Type} (E : Engine σ) (cd : Iconv σ) (input : List Byte) :
    ((∀ s inp, inp ≠ [] → okErr (E.iconv s inp bufSize).err →
        0 < (E.iconv s inp bufSize).consumed) →
      ∀ fuel, input.length ≤ fuel →
        ∃ r, Iconv.Conv E fuel cd input = some r ∧ r.steps.length ≤ input.length) ∧
    ((∀ s inp, okErr (E.iconv s inp bufSize).err ∧ (E.iconv s inp bufSize).consumed = 0) →
      input ≠ [] → ∀ fuel, Iconv.Conv E fuel cd input = none) ∧
    (∀ (fuel : Nat) (st : LoopState σ), st.inBuf ≠ [] →
      okErr (C_iconv E st.cd st.inBuf st.outBuf bufSize st.block).err →
      (C_iconv E st.cd st.inBuf st.outBuf bufSize st.block).consumed = 0 →
      ∃ st2 : LoopState σ, st2.inBuf = st.inBuf ∧
        convLoop E (fuel + 1) st = convLoop E fuel st2) := by
  refine ⟨?_, ?_, ?_⟩
  · intro hprog fuel hfuel
    by_cases hlen : input.length = 0
    · simp only [Iconv.Conv, if_pos hlen]
      exact ⟨_, rfl, by simp⟩
    · obtain ⟨r, hr, hsteps⟩ := convLoop_terminates E hprog fuel
        { cd := cd.pointer, inBuf := input, outBuf := 0, block := malloc bufSize,
          buf := [], steps := [], beyond := [] } hfuel
      simp only [Iconv.Conv, if_neg hlen]
      exact ⟨r, hr, by simpa using hsteps⟩
  · intro hstall hne fuel
    have hlen : ¬ input.length = 0 := fun h => hne (List.length_eq_zero.mp h)
    simp only [Iconv.Conv, if_neg hlen]
    exact convLoop_stalls E hstall fuel _ hne
  · intro fuel st hne hok hzero
    have hlen : st.inBuf.length > 0 := List.length_pos.mpr hne
    have hgo : ¬ ((C_iconv E st.cd st.inBuf st.outBuf bufSize st.block).err ≠ none ∧
        (C_iconv E st.cd st.inBuf st.outBuf bufSize st.block).err ≠ some E2BIG) := by
      intro h
      rcases hok with hok | hok
      · exact h.1 hok
      · exact h.2 hok
    simp only [convLoop, if_pos hlen, if_neg hgo]
    refine ⟨_, ?_, rfl⟩
    simp only [C_iconv] at hzero
    simp only [C_iconv, hzero, List.drop_zero]

/-- C10 at concrete inputs: the ASCII engine on three bytes returns within three
steps, and the engine that takes nothing never returns on one byte. -/
theorem C10_termination_witness :
    (∃ r, Iconv.Conv asciiEngine 3 ⟨()⟩ [97, 98, 99] = some r ∧ r.steps.length ≤ 3) ∧
      (∀ fuel, Iconv.Conv stallEngine fuel ⟨()⟩ [97] = none) :=
  ⟨(C10_termination asciiEngine ⟨()⟩ [97, 98, 99]).1 asciiEngine_progress 3 (by decide),
   (C10_termination stallEngine ⟨()⟩ [97]).2.1 (fun _ _ => ⟨Or.inr rfl, rfl⟩) (by decide)⟩

/-! ## The output cursor across iterations

`outBuf` is set to `outBufStart` once, before the loop (iconv.go:59); inside
the loop only `outBufN` is set back to `bufSize` (iconv.go:62).  A first step
is handed the scratch block itself.  The evaluations below show what a second
step is handed. -/

/-- Storing at the start of a block and reading the same number of bytes back
gives the bytes stored, when they fit into the block. -/
theorem take_poke_zero : ∀ (mem bs : List Byte), bs.length ≤ mem.length →
    (poke mem 0 bs).take bs.length = bs := by
  intro mem
  induction mem with
  | nil =>
    intro bs h
    cases bs with
    | nil => rfl
    | cons b bs => simp at h
  | cons m mem ih =>
    intro bs h
    cases bs with
    | nil => rfl
    | cons b bs =>
      simp only [poke, List.length_cons, List.take_succ_cons]
      rw [ih bs (by simpa using h)]

/-- The first engine step of `Iconv.Conv` is handed the start of the scratch
block with room `bufSize`, and the bytes appended after it are the bytes it
stored. -/
theorem first_step_appends_written {σ : Type} (E : Engine σ) (fuel : Nat)
    (cd : Iconv σ) (input : List Byte) (r : ConvRet σ)
    (h : Iconv.Conv E fuel cd input = some r) :
    ∀ t, r.steps.head? = some t →
      t.outBuf = 0 ∧ t.outBufN = bufSize ∧ t.appended = t.written := by
  intro t ht
  unfold Iconv.Conv at h
  split at h
  · simp only [Option.some.injEq] at h
    subst h
    simp at ht
  · cases fuel with
    | zero =>
      simp only [convLoop] at h
      split at h
      · simp at h
      · simp only [Option.some.injEq] at h
        subst h
        simp at ht
    | succ fuel =>
      simp only [convLoop] at h
      split at h
      · have hw : ((E.iconv cd.pointer input bufSize).produced.take bufSize).length
            ≤ (malloc bufSize).length := by
          simp [malloc, List.length_take]
        have happ : GoBytes (C_iconv E cd.pointer input 0 bufSize (malloc bufSize)).block
            (bufSize - (C_iconv E cd.pointer input 0 bufSize (malloc bufSize)).outBufN)
            = (C_iconv E cd.pointer input 0 bufSize (malloc bufSize)).written := by
          simp only [C_iconv, GoBytes]
          have hle : ((E.iconv cd.pointer input bufSize).produced.take bufSize).length
              ≤ bufSize := by
            simp [List.length_take]
          rw [Nat.sub_sub_self hle]
          exact take_poke_zero _ _ hw
        split at h
        · simp only [Option.some.injEq] at h
          subst h
          simp only [List.nil_append, List.head?_cons, Option.some.injEq] at ht
          subst ht
          exact ⟨rfl, rfl, happ⟩
        · obtain ⟨new, hsteps, -⟩ := convLoop_spec E fuel _ r h
          simp only [List.nil_append, List.singleton_append] at hsteps
          rw [hsteps] at ht
          simp only [List.head?_cons, Option.some.injEq] at ht
          subst ht
          exact ⟨rfl, rfl, happ⟩
      · simp only [Option.some.injEq] at h
        subst h
        simp at ht

/-- C1 evaluated at the boundary, with the ASCII engine (it stores what it
produces at the cursor it is handed and reports `E2BIG` when the room is used
up).  An input of 512 bytes is converted like the single-pass reference.  For
512 bytes `a` followed by `b` the single-pass reference is the input itself,
513 bytes and no failure, yet `Iconv.Conv` returns 512 bytes `a` followed by
`a`: the last byte is a duplicate of the first and `b` is dropped. -/
theorem C1_boundary_evaluated :
    (Iconv.Conv asciiEngine 1 ⟨()⟩ (List.replicate 512 97)).map
        (fun r => (r.result, r.err)) =
      some (reference asciiEngine () (List.replicate 512 97) 512, none) ∧
    reference asciiEngine () (List.replicate 512 97 ++ [98]) 513 =
      List.replicate 512 97 ++ [98] ∧
    (asciiEngine.iconv () (List.replicate 512 97 ++ [98]) 513).err = none ∧
    (Iconv.Conv asciiEngine 2 ⟨()⟩ (List.replicate 512 97 ++ [98])).map
        (fun r => (r.result, r.err)) =
      some (List.replicate 512 97 ++ [97], none) ∧
    (Iconv.Conv asciiEngine 2 ⟨()⟩ (List.replicate 512 97 ++ [98])).map
        (fun r => r.result) ≠
      some (reference asciiEngine () (List.replicate 512 97 ++ [98]) 513) := by
  decide

/-- C4 evaluated at a valid prefix of 513 bytes (512 bytes `a`, then `b`)
followed by the invalid byte `0xFF`, with the ASCII engine: the reference
conversion of the prefix is the prefix, without failure; `Iconv.Conv` returns
the failure `EILSEQ` with 512 bytes `a` followed by `a`, which is not the
converted prefix. -/
theorem C4_long_prefix_evaluated :
    reference asciiEngine () (List.replicate 512 97 ++ [98]) 513 =
      List.replicate 512 97 ++ [98] ∧
    (asciiEngine.iconv () (List.replicate 512 97 ++ [98]) 513).err = none ∧
    (asciiEngine.iconv () (List.replicate 512 97 ++ [98, 255]) 514).err = some EILSEQ ∧
    (Iconv.Conv asciiEngine 2 ⟨()⟩ (List.replicate 512 97 ++ [98, 255])).map
        (fun r => (r.result, r.err)) =
      some (List.replicate 512 97 ++ [97], some EILSEQ) ∧
    (Iconv.Conv asciiEngine 2 ⟨()⟩ (List.replicate 512 97 ++ [98, 255])).map
        (fun r => r.result) ≠
      some (reference asciiEngine () (List.replicate 512 97 ++ [98]) 513) := by
  decide

/-- C5 evaluated at 512 bytes `a`, then `b`, `c`, then the invalid byte `0x80`,
with the ASCII engine: the second step stores `b`, `c` and fails with `EILSEQ`;
`Iconv.Conv` returns that failure and the 512 bytes of the first step followed
by `a`, `a`, not by the bytes `b`, `c` the failing step produced. -/
theorem C5_failing_step_evaluated :
    (Iconv.Conv asciiEngine 2 ⟨()⟩ (List.replicate 512 97 ++ [98, 99, 128])).map
        (fun r => (r.result, r.err)) =
      some (List.replicate 512 97 ++ [97, 97], some EILSEQ) ∧
    (Iconv.Conv asciiEngine 2 ⟨()⟩ (List.replicate 512 97 ++ [98, 99, 128])).map
        (fun r => r.steps) =
      some [{ inBufN := 515, outBuf := 0, outBufN := 512, consumed := 512,
              written := List.replicate 512 97, err := some E2BIG,
              appended := List.replicate 512 97 },
            { inBufN := 3, outBuf := 512, outBufN := 512, consumed := 2,
              written := [98, 99], err := some EILSEQ, appended := [97, 97] }] := by
  decide

/-- C9 evaluated at 512 bytes `x` followed by `y`, `z`, with the ASCII engine:
the second step is handed the cursor at offset 512 from the start of the
scratch block, that is its end, with room 512; it stores `y`, `z` there, and
the bytes appended after it are `x`, `x`. -/
theorem C9_second_step_evaluated :
    (Iconv.Conv asciiEngine 2 ⟨()⟩ (List.replicate 512 120 ++ [121, 122])).map
        (fun r => r.steps) =
      some [{ inBufN := 514, outBuf := 0, outBufN := 512, consumed := 512,
              written := List.replicate 512 120, err := some E2BIG,
              appended := List.replicate 512 120 },
            { inBufN := 2, outBuf := 512, outBufN := 512, consumed := 2,
              written := [121, 122], err := none, appended := [120, 120] }] := by
  decide

/-- C7 evaluated at 512 bytes `a` followed by 512 bytes `b`, with the ASCII
engine, whose open succeeds: the second step is handed the cursor at offset 512
and stores its 512 bytes behind the scratch block, into the C heap;
`Iconv.Conv` hands back 1024 bytes `a` and no failure; the deferred release
then is a native call that frees memory of a heap with 512 bytes stored behind
an allocation, for which C defines no behaviour, so the one-shot `Conv` is not
known to return, with as many iterations as one likes. -/
theorem C7_release_after_overrun_evaluated :
    (Iconv.Conv asciiEngine 2 ⟨()⟩ (List.replicate 512 97 ++ List.replicate 512 98)).map
        (fun r => (r.result, r.err)) = some (List.replicate 1024 97, none) ∧
    (Iconv.Conv asciiEngine 2 ⟨()⟩ (List.replicate 512 97 ++ List.replicate 512 98)).map
        (fun r => r.steps.map (fun t => (t.outBuf, t.written.length))) =
      some [(0, 512), (512, 512)] ∧
    (Iconv.Conv asciiEngine 2 ⟨()⟩ (List.replicate 512 97 ++ List.replicate 512 98)).map
        (fun r => r.beyond.length) = some 512 ∧
    Conv asciiEngine 2 (List.replicate 512 97 ++ List.replicate 512 98) "ASCII" "ASCII" =
      Outcome.undefined ∧
    ∀ fuel o,
      Conv asciiEngine fuel (List.replicate 512 97 ++ List.replicate 512 98)
        "ASCII" "ASCII" ≠ Outcome.returns o := by
  have hlen : (Iconv.Conv asciiEngine 2 ⟨()⟩
      (List.replicate 512 97 ++ List.replicate 512 98)).map
        (fun r => r.beyond.length) = some 512 := by decide
  refine ⟨by decide, by decide, hlen, by decide, ?_⟩
  intro fuel o
  cases h2 : Iconv.Conv asciiEngine 2 ⟨()⟩
      (List.replicate 512 97 ++ List.replicate 512 98) with
  | none =>
    rw [h2] at hlen
    exact absurd hlen (by simp)
  | some r =>
    rw [h2] at hlen
    simp only [Option.map_some', Option.some.injEq] at hlen
    obtain ⟨x, xs, hb⟩ : ∃ x xs, r.beyond = x :: xs := by
      cases hb : r.beyond with
      | nil =>
        rw [hb] at hlen
        exact absurd hlen (by simp)
      | cons x xs => exact ⟨x, xs, rfl⟩
    have hbig : ∀ k, Conv asciiEngine (2 + k)
        (List.replicate 512 97 ++ List.replicate 512 98) "ASCII" "ASCII" =
          Outcome.undefined := by
      intro k
      have hk := Iconv_Conv_mono asciiEngine 2 ⟨()⟩ _ r h2 k
      have hopen : asciiEngine.iconv_open "ASCII" "ASCII" = Except.ok () := rfl
      simp only [Conv, Open, hopen, hk, Iconv.Close, C_iconv_close, hb]
    match fuel with
    | 0 =>
      have : Conv asciiEngine 0 (List.replicate 512 97 ++ List.replicate 512 98)
          "ASCII" "ASCII" = Outcome.running := by decide
      rw [this]
      simp
    | 1 =>
      have : Conv asciiEngine 1 (List.replicate 512 97 ++ List.replicate 512 98)
          "ASCII" "ASCII" = Outcome.running := by decide
      rw [this]
      simp
    | k + 2 =>
      rw [Nat.add_comm k 2, hbig k]
      simp

end GoIconv
